import Mathlib

/-!
Formal model of `src/scarr/engines/lra_wht.py` (the scarr LRA-WHT engine).

Python floats are modelled as rationals (`ℚ`): the properties under study are
algebraic identities and control-flow facts, independent of rounding.  NumPy
float divisions whose denominator can be zero are modelled with `Option ℚ`,
`none` standing for the NaN/Inf the source produces at a zero denominator.
Traces are functions `ℕ → ℚ` (sample index to value); byte-indexed arrays of
size 256 are functions read at indices below 256.
-/

namespace LraWht

/-- State of the `AverageTraces` accumulator: `avtraces` maps a byte value to
its stored average trace, `counters` maps a byte value to its observation
count (the source keeps the counters in a float array; they only ever hold
naturals). -/
structure AverageTraces where
  avtraces : ℕ → ℕ → ℚ
  counters : ℕ → ℕ

/-- `AverageTraces.__init__`: both arrays start as zeros. -/
def AverageTraces.empty : AverageTraces :=
  ⟨fun _ _ => 0, fun _ => 0⟩

/-- `AverageTraces.add_trace`: when the counter is zero the trace is stored as
is; otherwise the stored average is moved by `(trace - avg) / counters[data]`,
dividing by the counter value **before** the increment; then the counter is
incremented. -/
def add_trace (st : AverageTraces) (data : ℕ) (trace : ℕ → ℚ) : AverageTraces where
  avtraces := Function.update st.avtraces data
    (if st.counters data = 0 then trace
     else fun s => st.avtraces data s + (trace s - st.avtraces data s) / (st.counters data : ℚ))
  counters := Function.update st.counters data (st.counters data + 1)

/-- `AverageTraces.get_data`: `np.flatnonzero(self.counters)` lists the
indices with non-zero counter in increasing order, and the fancy indexing
`self.avtraces[avdata_snap]` pairs each index with its average trace in the
same order.  The engine constructs the accumulator with `num_values = 256`. -/
def get_data (st : AverageTraces) : List ℕ × List (ℕ → ℚ) :=
  let idx := (List.range 256).filter (fun b => st.counters b != 0)
  (idx, idx.map st.avtraces)

/-- C1 (evaluation of the code at the failing input): adding the two
one-sample traces `[0]` and then `[2]` for byte value `0` leaves
`counters[0] = 2` as the claim states, but the stored average sample is `2`,
not the batch mean `(0 + 2) / 2 = 1`: `add_trace` divides by the counter
before incrementing it, so the first trace is dropped from the mean. -/
theorem add_trace_mean_code_bug :
    (add_trace (add_trace AverageTraces.empty 0 (fun _ => 0)) 0 (fun _ => 2)).counters 0 = 2 ∧
    (add_trace (add_trace AverageTraces.empty 0 (fun _ => 0)) 0 (fun _ => 2)).avtraces 0 0 = 2 ∧
    ((0 : ℚ) + 2) / 2 = 1 ∧ (2 : ℚ) ≠ 1 := by
  refine ⟨?_, ?_, by norm_num, by norm_num⟩ <;>
    norm_num [add_trace, AverageTraces.empty, Function.update]

/-- C10: `add_trace` on byte value `b` leaves the counter and the average
trace of every other byte value `w ≠ b` unchanged. -/
theorem add_trace_frame (st : AverageTraces) (b : ℕ) (t : ℕ → ℚ) (w : ℕ) (h : w ≠ b) :
    (add_trace st b t).counters w = st.counters w ∧
    (add_trace st b t).avtraces w = st.avtraces w := by
  constructor <;> simp [add_trace, Function.update_noteq h]

/-- Witness for C10 at a concrete state, byte value and trace. -/
theorem add_trace_frame_witness :
    (1 : ℕ) ≠ 0 ∧
    ((add_trace AverageTraces.empty 0 (fun _ => 3)).counters 1 = AverageTraces.empty.counters 1 ∧
     (add_trace AverageTraces.empty 0 (fun _ => 3)).avtraces 1 = AverageTraces.empty.avtraces 1) :=
  ⟨by decide, add_trace_frame AverageTraces.empty 0 (fun _ => 3) 1 (by decide)⟩

/-- C5: `get_data` returns exactly the byte values with non-zero counter,
each below 256, in strictly ascending order, paired positionally with their
average traces; a never-observed byte value is absent from the returned
index list. -/
theorem get_data_nonzero_ascending (st : AverageTraces) :
    (∀ b, b ∈ (get_data st).1 ↔ b < 256 ∧ st.counters b ≠ 0) ∧
    (get_data st).1.Sorted (· < ·) ∧
    (get_data st).2 = (get_data st).1.map st.avtraces ∧
    (∀ b, st.counters b = 0 → b ∉ (get_data st).1) := by
  refine ⟨?_, ?_, rfl, ?_⟩
  · intro b
    simp [get_data, List.mem_filter, List.mem_range, and_comm]
  · exact List.Pairwise.filter _ (List.pairwise_lt_range 256)
  · intro b hb hmem
    rw [get_data] at hmem
    simp only [List.mem_filter, List.mem_range, bne_iff_ne, ne_eq] at hmem
    exact hmem.2 hb

/-- Concrete accumulator state used by the C5 witness: only byte value 7 was
observed. -/
def stObserved7 : AverageTraces :=
  ⟨fun _ _ => 0, fun b => if b = 7 then 2 else 0⟩

/-- Witness for C5: in `stObserved7`, byte value 3 has counter zero and is
absent from `get_data`'s index list. -/
theorem get_data_nonzero_ascending_witness :
    stObserved7.counters 3 = 0 ∧ 3 ∉ (get_data stObserved7).1 :=
  ⟨by norm_num [stObserved7],
   (get_data_nonzero_ascending stObserved7).2.2.2 3 (by norm_num [stObserved7])⟩

/-- Entry `(i, j)` of the order-`2^k` Sylvester Hadamard matrix produced by
`scipy.linalg.hadamard(2^k)`: the order-1 matrix is `[1]`, and each entry of a
larger matrix is `(-1)^(i₀·j₀)` times the entry `(i/2, j/2)` of the next
smaller one, `i₀, j₀` being the low bits of the indices; the entry equals
`(-1)^popcount(i AND j)`, the closed form of the Sylvester construction. -/
def had : ℕ → ℕ → ℕ → ℤ
  | 0, _, _ => 1
  | k + 1, i, j => (if i % 2 = 1 ∧ j % 2 = 1 then -1 else 1) * had k (i / 2) (j / 2)

/-- Sanity anchor: at order 4 the table is the familiar Sylvester matrix. -/
lemma had_order_four :
    (List.range 4).map (fun i => (List.range 4).map (fun j => had 2 i j)) =
      [[1, 1, 1, 1], [1, -1, 1, -1], [1, 1, -1, -1], [1, -1, -1, 1]] := by
  decide

/-- Splitting a sum over an even range into even and odd indices. -/
lemma sum_range_two_mul (f : ℕ → ℤ) (n : ℕ) :
    ∑ j in Finset.range (2 * n), f j
      = ∑ j in Finset.range n, (f (2 * j) + f (2 * j + 1)) := by
  induction n with
  | zero => simp
  | succ n ih =>
    have h : 2 * (n + 1) = 2 * n + 1 + 1 := by ring
    rw [h]
    simp only [Finset.sum_range_succ]
    rw [ih]
    ring

/-- Row-column orthogonality of the Sylvester Hadamard matrix: `H·H = 2^k·I`,
entrywise. -/
lemma had_mul_had (k : ℕ) : ∀ i l, i < 2 ^ k → l < 2 ^ k →
    ∑ j in Finset.range (2 ^ k), had k i j * had k j l
      = if i = l then (2 ^ k : ℤ) else 0 := by
  induction k with
  | zero =>
    intro i l hi hl
    have hi0 : i = 0 := by omega
    have hl0 : l = 0 := by omega
    subst hi0; subst hl0
    simp [had]
  | succ k ih =>
    intro i l hi hl
    have h2 : (2 : ℕ) ^ (k + 1) = 2 * 2 ^ k := by ring
    have hi' : i < 2 * 2 ^ k := by rw [← h2]; exact hi
    have hl' : l < 2 * 2 ^ k := by rw [← h2]; exact hl
    have hterm : ∀ j' : ℕ,
        had (k + 1) i (2 * j') * had (k + 1) (2 * j') l
          + had (k + 1) i (2 * j' + 1) * had (k + 1) (2 * j' + 1) l
        = (1 + (if i % 2 = 1 then (-1 : ℤ) else 1) * (if l % 2 = 1 then (-1 : ℤ) else 1))
            * (had k (i / 2) j' * had k j' (l / 2)) := by
      intro j'
      have e1 : (2 * j') % 2 = 0 := by omega
      have e2 : (2 * j') / 2 = j' := by omega
      have e3 : (2 * j' + 1) % 2 = 1 := by omega
      have e4 : (2 * j' + 1) / 2 = j' := by omega
      simp only [had, e1, e2, e3, e4]
      rcases Nat.mod_two_eq_zero_or_one i with hi2 | hi2 <;>
        rcases Nat.mod_two_eq_zero_or_one l with hl2 | hl2 <;>
          simp only [hi2, hl2] <;> norm_num [two_mul]
    rw [h2, sum_range_two_mul]
    have hsum : ∑ j' in Finset.range (2 ^ k),
        (had (k + 1) i (2 * j') * had (k + 1) (2 * j') l
          + had (k + 1) i (2 * j' + 1) * had (k + 1) (2 * j' + 1) l)
        = (1 + (if i % 2 = 1 then (-1 : ℤ) else 1) * (if l % 2 = 1 then (-1 : ℤ) else 1))
            * ∑ j' in Finset.range (2 ^ k), had k (i / 2) j' * had k j' (l / 2) := by
      rw [Finset.mul_sum]
      exact Finset.sum_congr rfl (fun j' _ => hterm j')
    rw [hsum, ih (i / 2) (l / 2) (by omega) (by omega)]
    have hpow : (2 : ℤ) ^ (k + 1) = 2 * 2 ^ k := by ring
    by_cases hij : i = l
    · subst hij
      rcases Nat.mod_two_eq_zero_or_one i with hi2 | hi2 <;>
        simp [hi2, hpow]
    · by_cases hd : i / 2 = l / 2
      · have hm : i % 2 ≠ l % 2 := by omega
        rcases Nat.mod_two_eq_zero_or_one i with hi2 | hi2 <;>
          rcases Nat.mod_two_eq_zero_or_one l with hl2 | hl2 <;>
            simp [hi2, hl2, hd, hij] at hm ⊢
      · simp [hd, hij]

/-- `WHT(x) = H @ x / n` with `n = x.shape[0]`, the Hadamard order (the engine
always calls it at length `n = 256 = 2^8`). -/
def WHT (k : ℕ) (x : ℕ → ℚ) : ℕ → ℚ :=
  fun i => (∑ j in Finset.range (2 ^ k), (had k i j : ℚ) * x j) / (2 ^ k : ℚ)

/-- `iWHT(x) = H @ x`, no normalization. -/
def iWHT (k : ℕ) (x : ℕ → ℚ) : ℕ → ℚ :=
  fun i => ∑ j in Finset.range (2 ^ k), (had k i j : ℚ) * x j

/-- The transform pair round-trips on every index below the Hadamard order. -/
lemma iWHT_WHT (k : ℕ) (x : ℕ → ℚ) (i : ℕ) (hi : i < 2 ^ k) :
    iWHT k (WHT k x) i = x i := by
  have hn : ((2 : ℚ) ^ k) ≠ 0 := pow_ne_zero k two_ne_zero
  unfold iWHT WHT
  have h1 : ∀ j : ℕ,
      (had k i j : ℚ) * ((∑ m in Finset.range (2 ^ k), (had k j m : ℚ) * x m) / (2 ^ k : ℚ))
        = (∑ m in Finset.range (2 ^ k), (had k i j : ℚ) * (had k j m : ℚ) * x m) / (2 ^ k : ℚ) := by
    intro j
    rw [mul_div_assoc', Finset.mul_sum]
    congr 1
    exact Finset.sum_congr rfl (fun m _ => by ring)
  calc
    ∑ j in Finset.range (2 ^ k),
        (had k i j : ℚ) * ((∑ m in Finset.range (2 ^ k), (had k j m : ℚ) * x m) / (2 ^ k : ℚ))
      = ∑ j in Finset.range (2 ^ k),
          (∑ m in Finset.range (2 ^ k), (had k i j : ℚ) * (had k j m : ℚ) * x m) / (2 ^ k : ℚ) :=
        Finset.sum_congr rfl (fun j _ => h1 j)
    _ = (∑ j in Finset.range (2 ^ k),
          ∑ m in Finset.range (2 ^ k), (had k i j : ℚ) * (had k j m : ℚ) * x m) / (2 ^ k : ℚ) := by
        rw [Finset.sum_div]
    _ = (∑ m in Finset.range (2 ^ k),
          ∑ j in Finset.range (2 ^ k), (had k i j : ℚ) * (had k j m : ℚ) * x m) / (2 ^ k : ℚ) := by
        rw [Finset.sum_comm]
    _ = (∑ m in Finset.range (2 ^ k),
          ((∑ j in Finset.range (2 ^ k), had k i j * had k j m : ℤ) : ℚ) * x m) / (2 ^ k : ℚ) := by
        congr 1
        refine Finset.sum_congr rfl (fun m _ => ?_)
        push_cast
        rw [Finset.sum_mul]
    _ = (∑ m in Finset.range (2 ^ k),
          (if i = m then ((2 : ℚ) ^ k) else 0) * x m) / (2 ^ k : ℚ) := by
        congr 1
        refine Finset.sum_congr rfl (fun m hm => ?_)
        rw [had_mul_had k i m hi (Finset.mem_range.mp hm)]
        split <;> simp
    _ = x i := by
        have : ∑ m in Finset.range (2 ^ k),
            (if i = m then ((2 : ℚ) ^ k) else 0) * x m
              = (2 : ℚ) ^ k * x i := by
          rw [Finset.sum_eq_single i]
          · simp
          · intro m _ hmi
            simp [Ne.symm hmi]
          · intro hmem
            exact absurd (Finset.mem_range.mpr hi) hmem
        rw [this, mul_div_cancel_left₀ _ hn]

/-- C3: with `H` the order-256 Sylvester Hadamard matrix, row-column products
of `H` with itself are 256 on the diagonal and 0 off it (`H·H = 256·I`), and
consequently the transform pair round-trips: `iWHT (WHT x) = x` at every
index of a length-256 vector. -/
theorem iWHT_WHT_roundtrip (x : ℕ → ℚ) (i l : ℕ) (hi : i < 256) (hl : l < 256) :
    (∑ j in Finset.range 256, had 8 i j * had 8 j l) = (if i = l then (256 : ℤ) else 0) ∧
    iWHT 8 (WHT 8 x) i = x i := by
  have h256 : (256 : ℕ) = 2 ^ 8 := by norm_num
  constructor
  · have h := had_mul_had 8 i l (by omega) (by omega)
    rw [h256]
    rw [h]
    norm_num
  · exact iWHT_WHT 8 x i (by omega)

/-- Witness for C3 at the vector `x j = j` and indices 5, 7. -/
theorem iWHT_WHT_roundtrip_witness :
    (5 : ℕ) < 256 ∧ (7 : ℕ) < 256 ∧
      iWHT 8 (WHT 8 (fun j => (j : ℚ))) 5 = ((5 : ℕ) : ℚ) :=
  ⟨by decide, by decide,
   (iWHT_WHT_roundtrip (fun j => (j : ℚ)) 5 7 (by decide) (by decide)).2⟩

/-- Maximum of `f 0 .. f n`; `np.max` of a row of length `len` is
`foldMax row (len - 1)` (NumPy rejects an empty row). -/
def foldMax (f : ℕ → ℚ) : ℕ → ℚ
  | 0 => f 0
  | n + 1 => max (foldMax f n) (f (n + 1))

/-- Index of the first occurrence of the maximum of `f 0 .. f n` — the
`np.argmax` scan, where a later index replaces the current best only on a
strictly larger value. -/
def foldArgmax (f : ℕ → ℚ) : ℕ → ℕ
  | 0 => 0
  | n + 1 => if foldMax f n < f (n + 1) then n + 1 else foldArgmax f n

/-- `r2_peaks = np.max(r2, axis=1)` of `LRA.calculate`: the maximum of
hypothesis row `b` over the sample points `0 .. tlen - 1`. -/
def r2_peaks (r2 : ℕ → ℕ → ℚ) (tlen b : ℕ) : ℚ :=
  foldMax (r2 b) (tlen - 1)

/-- `winning_byte = int(np.argmax(r2_peaks))` of `LRA.calculate`, over the
256 hypothesis rows. -/
def winning_byte (r2 : ℕ → ℕ → ℚ) (tlen : ℕ) : ℕ :=
  foldArgmax (fun b => r2_peaks r2 tlen b) 255

lemma le_foldMax (f : ℕ → ℚ) : ∀ n i, i ≤ n → f i ≤ foldMax f n := by
  intro n
  induction n with
  | zero =>
    intro i hi
    have : i = 0 := by omega
    subst this
    exact le_refl _
  | succ n ih =>
    intro i hi
    rcases Nat.lt_or_ge i (n + 1) with hlt | hge
    · exact (ih i (by omega)).trans (le_max_left _ _)
    · have : i = n + 1 := by omega
      subst this
      exact le_max_right _ _

lemma foldMax_exists (f : ℕ → ℚ) : ∀ n, ∃ i, i ≤ n ∧ foldMax f n = f i := by
  intro n
  induction n with
  | zero => exact ⟨0, le_refl _, rfl⟩
  | succ n ih =>
    rcases le_total (foldMax f n) (f (n + 1)) with h | h
    · exact ⟨n + 1, le_refl _, max_eq_right h⟩
    · obtain ⟨i, hi, hei⟩ := ih
      exact ⟨i, by omega, (max_eq_left h).trans hei⟩

lemma foldArgmax_le (f : ℕ → ℚ) : ∀ n, foldArgmax f n ≤ n := by
  intro n
  induction n with
  | zero => exact le_refl _
  | succ n ih =>
    rw [foldArgmax]
    split
    · exact le_refl _
    · omega

lemma foldMax_eq_argmax (f : ℕ → ℚ) : ∀ n, f (foldArgmax f n) = foldMax f n := by
  intro n
  induction n with
  | zero => rfl
  | succ n ih =>
    rw [foldArgmax, foldMax]
    split
    · next h => exact (max_eq_right h.le).symm
    · next h => exact ih.trans (max_eq_left (not_lt.mp h)).symm

lemma lt_foldMax_of_lt_argmax (f : ℕ → ℚ) :
    ∀ n j, j < foldArgmax f n → f j < foldMax f n := by
  intro n
  induction n with
  | zero =>
    intro j hj
    exact absurd hj (by simp [foldArgmax])
  | succ n ih =>
    intro j hj
    rw [foldArgmax] at hj
    rw [foldMax]
    by_cases h : foldMax f n < f (n + 1)
    · rw [if_pos h] at hj
      rw [max_eq_right h.le]
      exact (le_foldMax f n j (by omega)).trans_lt h
    · rw [if_neg h] at hj
      rw [max_eq_left (not_lt.mp h)]
      exact ih j hj

/-- C4: with at least one sample point, `calculate`'s reduction takes the
maximum of each of the 256 hypothesis rows over the sample points and
returns the hypothesis with the largest peak, the lowest index winning
ties: the winner `w` is below 256; each row's peak bounds the row and is
attained at some sample point; the winner's peak bounds every peak; and
every hypothesis below `w` has a strictly smaller peak. -/
theorem calculate_peak_argmax (r2 : ℕ → ℕ → ℚ) (tlen : ℕ) (h : 0 < tlen) :
    winning_byte r2 tlen < 256 ∧
    (∀ b, b < 256 → ∀ i, i < tlen → r2 b i ≤ r2_peaks r2 tlen b) ∧
    (∀ b, b < 256 → ∃ i, i < tlen ∧ r2_peaks r2 tlen b = r2 b i) ∧
    (∀ b, b < 256 → r2_peaks r2 tlen b ≤ r2_peaks r2 tlen (winning_byte r2 tlen)) ∧
    (∀ b, b < winning_byte r2 tlen →
      r2_peaks r2 tlen b < r2_peaks r2 tlen (winning_byte r2 tlen)) := by
  refine ⟨?_, ?_, ?_, ?_, ?_⟩
  · have h5 := foldArgmax_le (fun b => r2_peaks r2 tlen b) 255
    rw [winning_byte]
    omega
  · intro b _ i hi
    exact le_foldMax (r2 b) (tlen - 1) i (by omega)
  · intro b _
    obtain ⟨i, hi, hei⟩ := foldMax_exists (r2 b) (tlen - 1)
    exact ⟨i, by omega, hei⟩
  · intro b hb
    calc r2_peaks r2 tlen b
        ≤ foldMax (fun b => r2_peaks r2 tlen b) 255 :=
          le_foldMax (fun b => r2_peaks r2 tlen b) 255 b (by omega)
      _ = r2_peaks r2 tlen (winning_byte r2 tlen) :=
          (foldMax_eq_argmax (fun b => r2_peaks r2 tlen b) 255).symm
  · intro b hb
    calc r2_peaks r2 tlen b
        < foldMax (fun b => r2_peaks r2 tlen b) 255 :=
          lt_foldMax_of_lt_argmax (fun b => r2_peaks r2 tlen b) 255 b hb
      _ = r2_peaks r2 tlen (winning_byte r2 tlen) :=
          (foldMax_eq_argmax (fun b => r2_peaks r2 tlen b) 255).symm

/-- Witness for C4 at a concrete two-sample R² surface. -/
theorem calculate_peak_argmax_witness :
    (0 : ℕ) < 2 ∧
      winning_byte (fun b i => if b = 3 ∧ i = 1 then 9 else 0) 2 < 256 :=
  ⟨by decide, (calculate_peak_argmax (fun b i => if b = 3 ∧ i = 1 then 9 else 0) 2 (by decide)).1⟩

/-- One call of `LRA.update`, restricted to a single sample point: `batch` is
the list holding that sample of each trace in the batch.  Per trace the loop
runs `u += t`, `v += t * t`, `n_tr += 1`; the call returns `(n_tr, v, u)` in
the state they have when it ends. -/
def update_sums (batch : List ℚ) (n_tr : ℕ) (v u : ℚ) : ℕ × ℚ × ℚ :=
  (n_tr + batch.length, v + (batch.map (fun t => t * t)).sum, u + batch.sum)

/-- The accumulation loop of `LRA.run_workload` at a single sample point,
starting from `n_tr = 0`, `v = u = 0`.  The NumPy arrays `v` and `u` are
passed into `update` by reference and mutated there in place (`u += t`,
`v += t * t`), so the returned `tmp_v`, `tmp_u` are the already-updated `v`
and `u`; the subsequent `v += tmp_v` and `u += tmp_u` of `run_workload`
therefore double them.  `n_tr` is a Python int, so `tmp_n_tr` is
`n_tr + len(batch)` and `n_tr += tmp_n_tr` yields `2 * n_tr + len(batch)`. -/
def run_workload_sums (batches : List (List ℚ)) : ℕ × ℚ × ℚ :=
  batches.foldl
    (fun acc batch =>
      let tmp := update_sums batch acc.1 acc.2.1 acc.2.2
      (acc.1 + tmp.1, tmp.2.1 + tmp.2.1, tmp.2.2 + tmp.2.2))
    (0, 0, 0)

/-- The `sst = v - (u ** 2) / n_tr` line of `LRA.calculate` at one sample
point; at `n_tr = 0` the float division is undefined (`0/0` is NaN in the
source), modelled as `none`. -/
def sst_of (v u : ℚ) (n_tr : ℕ) : Option ℚ :=
  if n_tr = 0 then none else some (v - u ^ 2 / (n_tr : ℚ))

/-- C2 (evaluation of the code at the failing input): streaming a single
batch holding a single one-sample trace `[1]` ends with `n_tr = 1` but
`u = 2` and `v = 2` — double the claimed per-sample sum `1` and
sum-of-squares `1`, because `update` mutates the arrays in place and
`run_workload` adds the returned aliases back — and the `sst` then passed to
the scorer is `2 - 2²/1 = -2`, not `1 - 1²/1 = 0`. -/
theorem run_workload_sums_code_bug :
    run_workload_sums [[1]] = (1, 2, 2) ∧
    sst_of 2 2 1 = some (-2) ∧
    ((2 : ℚ), (2 : ℚ)) ≠ ((1 : ℚ), (1 : ℚ)) ∧ some (-2 : ℚ) ≠ some 0 := by
  refine ⟨?_, ?_, by norm_num, by norm_num⟩
  · norm_num [run_workload_sums, update_sums]
  · norm_num [sst_of]

/-- C7 (evaluation of the code at the failing input): on an empty batch
stream `run_workload` performs no detection and no report — it still calls
`calculate` with `n_tr = 0` and `u = v = 0`, where the `sst` computation
divides by the zero observation count (`0/0`, NaN in the source), modelled
as `none`. -/
theorem empty_stream_code_bug :
    run_workload_sums [] = (0, 0, 0) ∧
    sst_of 0 0 (run_workload_sums []).1 = none := by
  constructor <;> rfl

/-- The `R2[key_byte, i] = SSR / sst[i]` assignment of `lra` (the only use of
`sst` there): a zero `sst[i]` makes the float division undefined (NaN/Inf in
the source), modelled as `none`.  No branch of the source inspects `sst[i]`
before dividing, and every sample point stays in the later peak reduction. -/
def r2_entry (SSR sst_i : ℚ) : Option ℚ :=
  if sst_i = 0 then none else some (SSR / sst_i)

/-- C6 (evaluation of the code at the failing input): at a sample point with
`sst = 0` the source still divides; the R² entry is undefined (NaN/Inf),
in particular not clamped to zero, and nothing excludes the point from the
peak reduction. -/
theorem r2_entry_zero_sst_code_bug :
    r2_entry 1 0 = none ∧ r2_entry 1 0 ≠ some 0 := by
  constructor <;> simp [r2_entry]

/-- `model_single_bits(x, bit_width)`: the loop appends `(x >> i) & 1` for
`i = 0 .. bit_width - 1`, then appends the constant `1`. -/
def model_single_bits (x bit_width : ℕ) : List ℕ :=
  ((List.range bit_width).map (fun i => (x >>> i) &&& 1)) ++ [1]

/-- C8: for a byte value `x` and a bit width `w` with `1 ≤ w ≤ 8`, the model
vector has length `w + 1`, its entry at index `i < w` is bit `i` of `x`
(least-significant first, `x / 2^i % 2`), and its final entry is the
constant `1` (intercept term). -/
theorem model_single_bits_spec (x w : ℕ) (hx : x < 256) (h1 : 1 ≤ w) (h8 : w ≤ 8) :
    (model_single_bits x w).length = w + 1 ∧
    (∀ i, i < w → (model_single_bits x w)[i]? = some (x / 2 ^ i % 2)) ∧
    (model_single_bits x w)[w]? = some 1 := by
  refine ⟨by simp [model_single_bits], ?_, ?_⟩
  · intro i hi
    rw [model_single_bits, List.getElem?_append_left (by simpa using hi),
      List.getElem?_map, List.getElem?_range hi]
    simp [Nat.and_one_is_mod, Nat.shiftRight_eq_div_pow]
  · rw [model_single_bits, List.getElem?_append_right (by simp)]
    simp

/-- Witness for C8 at `x = 5`, `w = 8`. -/
theorem model_single_bits_spec_witness :
    ((5 : ℕ) < 256 ∧ (1 : ℕ) ≤ 8 ∧ (8 : ℕ) ≤ 8) ∧
      (model_single_bits 5 8).length = 9 :=
  ⟨⟨by decide, by decide, by decide⟩,
   (model_single_bits_spec 5 8 (by decide) (by decide) (by decide)).1⟩

/-- A `(tile_x, tile_y)` pair. -/
abbrev Tile := ℕ × ℕ

/-- The workload of `LRA.run` with each unit's returned winning byte, in
construction order — tiles outermost, key-byte positions in
`container.model_positions` order; `pool.starmap` returns its results in
exactly this order.  `res t p` stands for the byte the `(tile, position)`
unit returns. -/
def starmap_results (tiles : List Tile) (positions : List ℕ) (res : Tile → ℕ → ℕ) :
    List (Tile × ℕ × ℕ) :=
  tiles.flatMap (fun t => positions.map (fun p => (t, p, res t p)))

/-- Python's `list.index`: position of the first occurrence of `t`
(`list(container.tiles).index((tile_x, tile_y))`; only ever called on a
member). -/
def tile_index (tiles : List Tile) (t : Tile) : ℕ :=
  match tiles with
  | [] => 0
  | t' :: ts => if t' = t then 0 else tile_index ts t + 1

lemma tile_index_lt_length (tiles : List Tile) (t : Tile) (h : t ∈ tiles) :
    tile_index tiles t < tiles.length := by
  induction tiles with
  | nil => simp at h
  | cons t' ts ih =>
    rw [tile_index]
    by_cases he : t' = t
    · simp [he]
    · rw [if_neg he]
      have : t ∈ ts := by
        rcases List.mem_cons.mp h with h1 | h1
        · exact absurd h1.symm he
        · exact h1
      have := ih this
      simp only [List.length_cons]
      omega

lemma tile_index_append_of_mem (tiles rest : List Tile) (t : Tile) (h : t ∈ tiles) :
    tile_index (tiles ++ rest) t = tile_index tiles t := by
  induction tiles with
  | nil => simp at h
  | cons t' ts ih =>
    rw [List.cons_append, tile_index, tile_index]
    by_cases he : t' = t
    · simp [he]
    · rw [if_neg he, if_neg he]
      have : t ∈ ts := by
        rcases List.mem_cons.mp h with h1 | h1
        · exact absurd h1.symm he
        · exact h1
      rw [ih this]

lemma tile_index_append_self (tiles : List Tile) (t : Tile) (h : t ∉ tiles) :
    tile_index (tiles ++ [t]) t = tiles.length := by
  induction tiles with
  | nil => simp [tile_index]
  | cons t' ts ih =>
    rw [List.cons_append, tile_index]
    have he : t' ≠ t := fun he => h (by simp [he])
    rw [if_neg he, ih (fun hm => h (by simp [hm]))]
    rfl

/-- One iteration of the collection loop of `LRA.run`: the result's byte is
appended to `aes_key[container.tiles.index(tile)]`. -/
def collect_step (tiles : List Tile) (acc : List (List ℕ)) (r : Tile × ℕ × ℕ) :
    List (List ℕ) :=
  acc.set (tile_index tiles r.1) (acc.getD (tile_index tiles r.1) [] ++ [r.2.2])

/-- The recovered keys of `LRA.run`: `aes_key` starts as one empty list per
tile, then every starmap result appends its byte at its tile's index. -/
def run_keys (tiles : List Tile) (positions : List ℕ) (res : Tile → ℕ → ℕ) :
    List (List ℕ) :=
  (starmap_results tiles positions res).foldl (collect_step tiles)
    (List.replicate tiles.length [])

lemma set_getD_self : ∀ (l : List (List ℕ)) (i : ℕ), i < l.length →
    l.set i (l.getD i []) = l := by
  intro l
  induction l with
  | nil => intro i hi; simp at hi
  | cons a tl ih =>
    intro i hi
    cases i with
    | zero => rfl
    | succ i =>
      have h' : i < tl.length := by simpa using hi
      calc (a :: tl).set (i + 1) ((a :: tl).getD (i + 1) [])
          = a :: tl.set i (tl.getD i []) := by rw [List.getD_cons_succ]; rfl
        _ = a :: tl := by rw [ih i h']

lemma getD_set_self (l : List (List ℕ)) (i : ℕ) (a : List ℕ) (h : i < l.length) :
    (l.set i a).getD i [] = a := by
  rw [List.getD_eq_getElem?_getD, List.getElem?_set_self (by simpa using h)]
  rfl

lemma getD_append_left (l l' : List (List ℕ)) (i : ℕ) (h : i < l.length) :
    (l ++ l').getD i [] = l.getD i [] := by
  rw [List.getD_eq_getElem?_getD, List.getD_eq_getElem?_getD, List.getElem?_append_left h]

/-- Folding one tile's block of results appends that tile's bytes, in
position order, at the tile's index. -/
lemma foldl_tile_block (tiles : List Tile) (res : Tile → ℕ → ℕ) (t : Tile) :
    ∀ (positions : List ℕ) (acc : List (List ℕ)), tile_index tiles t < acc.length →
      (positions.map (fun p => (t, p, res t p))).foldl (collect_step tiles) acc
        = acc.set (tile_index tiles t)
            (acc.getD (tile_index tiles t) [] ++ positions.map (res t)) := by
  intro positions
  induction positions with
  | nil =>
    intro acc hlen
    simp only [List.map_nil, List.foldl_nil, List.append_nil]
    exact (set_getD_self acc _ hlen).symm
  | cons p ps ih =>
    intro acc hlen
    simp only [List.map_cons, List.foldl_cons]
    have hstep : collect_step tiles acc (t, p, res t p)
        = acc.set (tile_index tiles t) (acc.getD (tile_index tiles t) [] ++ [res t p]) := rfl
    rw [hstep, ih _ (by simpa using hlen)]
    rw [List.set_set, getD_set_self _ _ _ hlen]
    rw [List.append_assoc]
    rfl

/-- Folding results whose tiles all live below the accumulator's length
ignores a trailing extra entry. -/
lemma foldl_pad (tiles : List Tile) :
    ∀ (rs : List (Tile × ℕ × ℕ)) (acc : List (List ℕ)) (x : List ℕ),
      (∀ r ∈ rs, tile_index tiles r.1 < acc.length) →
      rs.foldl (collect_step tiles) (acc ++ [x])
        = rs.foldl (collect_step tiles) acc ++ [x] := by
  intro rs
  induction rs with
  | nil => intro acc x _; rfl
  | cons r rs ih =>
    intro acc x hbound
    have hr : tile_index tiles r.1 < acc.length := hbound r (by simp)
    have hstep : collect_step tiles (acc ++ [x]) r = collect_step tiles acc r ++ [x] := by
      rw [collect_step, collect_step, getD_append_left _ _ _ hr,
        List.set_append_left _ _ hr]
    rw [List.foldl_cons, List.foldl_cons, hstep]
    exact ih (collect_step tiles acc r) x
      (fun r' hr' => by
        have := hbound r' (by simp [hr'])
        simpa [collect_step, List.length_set] using this)

/-- The collection fold only looks at tiles through their index, so two tile
lists indexing the traversed results identically collect identically. -/
lemma foldl_step_congr (tiles tiles' : List Tile) :
    ∀ (rs : List (Tile × ℕ × ℕ)) (acc : List (List ℕ)),
      (∀ r ∈ rs, tile_index tiles r.1 = tile_index tiles' r.1) →
      rs.foldl (collect_step tiles) acc = rs.foldl (collect_step tiles') acc := by
  intro rs
  induction rs with
  | nil => intro acc _; rfl
  | cons r rs ih =>
    intro acc hidx
    have hstep : collect_step tiles acc r = collect_step tiles' acc r := by
      rw [collect_step, collect_step, hidx r (by simp)]
    rw [List.foldl_cons, List.foldl_cons, hstep]
    exact ih _ (fun r' hr' => hidx r' (by simp [hr']))

lemma mem_starmap_results_tile (tiles : List Tile) (positions : List ℕ)
    (res : Tile → ℕ → ℕ) (r : Tile × ℕ × ℕ)
    (h : r ∈ starmap_results tiles positions res) : r.1 ∈ tiles := by
  rw [starmap_results, List.mem_flatMap] at h
  obtain ⟨t', ht', hr⟩ := h
  rw [List.mem_map] at hr
  obtain ⟨p, _, rfl⟩ := hr
  exact ht'

/-- C9 counterexample: with one tile and `model_positions = [1, 0]`, the
collected key is `[byte(pos 1), byte(pos 0)]` — append order — not the
key-byte-position order `[byte(pos 0), byte(pos 1)]` the claim requires
(here `res t p = p`, so the two orders differ: `[1, 0] ≠ [0, 1]`). -/
theorem run_keys_append_order_counterexample :
    run_keys [(0, 0)] [1, 0] (fun _ p => p) = [[1, 0]] ∧
      ([[1, 0]] : List (List ℕ)) ≠ [[0, 1]] := by
  constructor
  · rfl
  · decide

/-- C9 amended: with distinct tiles, each tile's collected key holds exactly
one winning byte per key-byte position, ordered as the positions appear in
`container.model_positions` (the workload order `pool.starmap` preserves) —
which is key-byte-position order exactly when `model_positions` is listed in
ascending order. -/
theorem run_keys_by_position (tiles : List Tile) (positions : List ℕ)
    (res : Tile → ℕ → ℕ) (hnd : tiles.Nodup) :
    run_keys tiles positions res = tiles.map (fun t => positions.map (res t)) := by
  revert hnd
  induction tiles using List.reverseRecOn with
  | nil => intro _; rfl
  | append_singleton T' t ih =>
    intro hnd
    rw [List.nodup_append] at hnd
    have hT'nd : T'.Nodup := hnd.1
    have htT' : t ∉ T' := fun hmem => hnd.2.2 hmem (by simp)
    have hsplit : starmap_results (T' ++ [t]) positions res
        = starmap_results T' positions res
            ++ positions.map (fun p => (t, p, res t p)) := by
      rw [starmap_results, List.flatMap_append]
      simp [starmap_results]
    have hlen : (T' ++ [t]).length = T'.length + 1 := by simp
    have hidx_mem : ∀ r ∈ starmap_results T' positions res,
        tile_index (T' ++ [t]) r.1 = tile_index T' r.1 := by
      intro r hr
      exact tile_index_append_of_mem T' [t] r.1
        (mem_starmap_results_tile T' positions res r hr)
    have hbound : ∀ r ∈ starmap_results T' positions res,
        tile_index (T' ++ [t]) r.1 < T'.length := by
      intro r hr
      rw [hidx_mem r hr]
      exact tile_index_lt_length T' r.1 (mem_starmap_results_tile T' positions res r hr)
    have hbound' : ∀ r ∈ starmap_results T' positions res,
        tile_index (T' ++ [t]) r.1 < (List.replicate T'.length ([] : List ℕ)).length := by
      intro r hr
      rw [List.length_replicate]
      exact hbound r hr
    have hidx_t : tile_index (T' ++ [t]) t = T'.length :=
      tile_index_append_self T' t htT'
    rw [run_keys, hsplit, List.foldl_append, hlen, List.replicate_succ' T'.length [],
      foldl_pad (T' ++ [t]) _ _ _ hbound',
      foldl_step_congr (T' ++ [t]) T' _ _ hidx_mem]
    have hinner : (starmap_results T' positions res).foldl (collect_step T')
        (List.replicate T'.length []) = T'.map (fun t => positions.map (res t)) :=
      ih hT'nd
    rw [hinner]
    have hlen2 : tile_index (T' ++ [t]) t
        < (T'.map (fun t => positions.map (res t)) ++ [[]]).length := by
      rw [hidx_t]; simp
    rw [foldl_tile_block (T' ++ [t]) res t positions _ hlen2, hidx_t]
    have hget : (T'.map (fun t => positions.map (res t)) ++ [[]]).getD T'.length [] = [] := by
      rw [List.getD_eq_getElem?_getD, List.getElem?_append_right (by simp)]
      simp
    rw [hget, List.set_append_right _ _ (by simp)]
    simp

/-- Witness for C9 (amended) at two distinct tiles and positions `[2, 0, 1]`. -/
theorem run_keys_by_position_witness :
    ([((0 : ℕ), (0 : ℕ)), (1, 0)] : List Tile).Nodup ∧
      run_keys [(0, 0), (1, 0)] [2, 0, 1] (fun t p => 10 * t.1 + p)
        = [((0 : ℕ), (0 : ℕ)), (1, 0)].map (fun t => [2, 0, 1].map (fun p => 10 * t.1 + p)) :=
  ⟨by decide,
   run_keys_by_position [(0, 0), (1, 0)] [2, 0, 1] (fun t p => 10 * t.1 + p) (by decide)⟩

end LraWht
